import Mathlib

/-!
# Verification of the HumdrumLine component (humlib)

Shallow embedding of `HumdrumLine.cpp`.  A line's text is modelled as a
`List Char`; the token vector `m_tokens` is a `List (Option (List Char))`
(a `none` entry models a NULL `HumdrumToken*` pointer stored in the
vector); the per-boundary separator widths `m_tabs` are a `List Nat`.
`HumNum` values are modelled as `Rat` (humlib durations are exact
rationals).  C++ `int` indices that may be negative are modelled as `Int`.
All recursions are structural so every definition evaluates by `decide`.
-/

namespace Humlib

/-- The C NUL character, returned by `HumdrumLine::getChar` out of range. -/
def nulChar : Char := Char.ofNat 0

/-- `HumdrumLine::getChar(int index)`: NUL when `index` is negative or at
least the string size, otherwise the character at that index (the raw
`string::operator[]` access is guarded by the two checks, so it is in
bounds; `List.getD` with an irrelevant default models it). -/
def getChar (s : List Char) (index : Int) : Char :=
  if index < 0 then nulChar
  else if (s.length : Int) ≤ index then nulChar
  else s.getD index.toNat nulChar

/-- `HumdrumLine::equalChar(int index, char ch)`: false when the index is
out of range (the size test comes first in the source), otherwise compares
the character at the index with `ch`. -/
def equalChar (s : List Char) (index : Int) (ch : Char) : Bool :=
  if (s.length : Int) ≤ index then false
  else if index < 0 then false
  else if s.getD index.toNat nulChar = ch then true else false

/-- `HumdrumLine::isComment`: first character is an exclamation point. -/
def isComment (s : List Char) : Bool := equalChar s 0 '!'

/-- `HumdrumLine::isCommentLocal`: one leading exclamation point only. -/
def isCommentLocal (s : List Char) : Bool :=
  equalChar s 0 '!' && !(equalChar s 1 '!')

/-- `HumdrumLine::isCommentGlobal`: two leading exclamation points. -/
def isCommentGlobal (s : List Char) : Bool :=
  equalChar s 0 '!' && equalChar s 1 '!'

/-- `HumdrumLine::isInterp`: first character is a star. -/
def isInterp (s : List Char) : Bool := equalChar s 0 '*'

/-- `HumdrumLine::isBarline`: first character is an equals sign. -/
def isBarline (s : List Char) : Bool := equalChar s 0 '='

/-- `HumdrumLine::isEmpty`: the line text has no characters. -/
def isEmpty (s : List Char) : Bool := if s.length = 0 then true else false

/-- `HumdrumLine::isData`: not a comment, interpretation, barline or
empty line. -/
def isData (s : List Char) : Bool :=
  if isComment s || isInterp s || isBarline s || isEmpty s then false
  else true

/-- `HumdrumLine::hasSpines`: every line except empty lines and global
comments has spines. -/
def hasSpines (s : List Char) : Bool :=
  if isEmpty s || isCommentGlobal s then false else true

/-- `HumdrumLine::isGlobal`: negation of `hasSpines`. -/
def isGlobal (s : List Char) : Bool := !hasSpines s

/-- C `isspace`: space, horizontal tab, newline, vertical tab, form feed,
carriage return. -/
def isSpaceC (c : Char) : Bool :=
  c == ' ' || c == '\t' || c == '\n' || c == Char.ofNat 11 ||
    c == Char.ofNat 12 || c == '\r'

/-- `std::string::find(char)` modelled as the index of the first
occurrence; `none` models `string::npos`. -/
def findChar : List Char → Char → Option Nat
  | [], _ => none
  | c :: rest, target =>
      if c = target then some 0 else (findChar rest target).map (fun n => n + 1)

/-- `HumdrumLine::isGlobalReference`: at least five characters, starts
with three exclamation points, fourth character is not an exclamation
point, a colon exists, and no space or tab occurs before the first
colon. -/
def isGlobalReference (s : List Char) : Bool :=
  if s.length < 5 then false
  else if ¬ s.take 3 = ['!', '!', '!'] then false
  else if s.getD 3 nulChar = '!' then false
  else
    match findChar s ':' with
    | none => false
    | some colloc =>
        (match findChar s ' ' with
         | none => true
         | some spaceloc => if spaceloc < colloc then false else true) &&
        (match findChar s '\t' with
         | none => true
         | some tabloc => if tabloc < colloc then false else true)

/-- `HumdrumLine::isUniversalReference`: like `isGlobalReference` but with
four leading exclamation points and the fifth character not one. -/
def isUniversalReference (s : List Char) : Bool :=
  if s.length < 5 then false
  else if ¬ s.take 4 = ['!', '!', '!', '!'] then false
  else if s.getD 4 nulChar = '!' then false
  else
    match findChar s ':' with
    | none => false
    | some colloc =>
        (match findChar s ' ' with
         | none => true
         | some spaceloc => if spaceloc < colloc then false else true) &&
        (match findChar s '\t' with
         | none => true
         | some tabloc => if tabloc < colloc then false else true)

/-- The index-advancing whitespace skip loop used by the reference-record
accessors (`for (i=index; i<stop; i++) if isspace continue else break`),
written with an explicit fuel `stop - i` so the recursion is structural. -/
def skipWsAux (s : List Char) : Nat → Nat → Nat
  | i, 0 => i
  | i, fuel + 1 => if isSpaceC (s.getD i nulChar) then skipWsAux s (i + 1) fuel else i

/-- First index in `[i, stop)` holding a non-whitespace character, or
`stop` if all of them are whitespace. -/
def skipWs (s : List Char) (i stop : Nat) : Nat := skipWsAux s i (stop - i)

/-- The trailing-whitespace trim used on reference VALUES: repeatedly
resize away the last character while it is whitespace, breaking at the
first non-whitespace character. -/
def rtrimWs (out : List Char) : List Char :=
  ((out.reverse).dropWhile isSpaceC).reverse

/-- The trim loop used on reference KEYS.  The source loop walks `i` from
the end to 0 and, whenever character `i` of the current string is
whitespace, resizes the current string down by one (there is no `break`,
so the character removed is always the current last one, which for an
interior whitespace need not be the whitespace itself). -/
def keyTrimLoop : Nat → List Char → List Char
  | 0, cur => if isSpaceC (cur.getD 0 nulChar) then cur.dropLast else cur
  | i + 1, cur =>
      keyTrimLoop i (if isSpaceC (cur.getD (i + 1) nulChar) then cur.dropLast else cur)

/-- Run `keyTrimLoop` from the last index of the string, as the source
loop does (no iterations on an empty string). -/
def keyTrim (out : List Char) : List Char :=
  match out.length with
  | 0 => out
  | n + 1 => keyTrimLoop n out

/-- `HumdrumLine::getGlobalReferenceKey`: the text between the three
exclamation points and the first colon, with leading whitespace skipped
and the key-trim applied. -/
def getGlobalReferenceKey (s : List Char) : List Char :=
  if s.length < 5 then []
  else if ¬ s.take 3 = ['!', '!', '!'] then []
  else if s.getD 3 nulChar = '!' then []
  else
    match findChar s ':' with
    | none => []
    | some colloc =>
        let index := skipWs s 3 colloc
        if colloc ≤ index then []
        else keyTrim ((s.drop index).take (colloc - index))

/-- `HumdrumLine::getGlobalReferenceValue`: the text after the first
colon, with leading whitespace skipped and trailing whitespace trimmed.
The source checks character 4 (not 3) against an exclamation point. -/
def getGlobalReferenceValue (s : List Char) : List Char :=
  if s.length < 6 then []
  else if ¬ s.take 3 = ['!', '!', '!'] then []
  else if s.getD 4 nulChar = '!' then []
  else
    match findChar s ':' with
    | none => []
    | some colloc =>
        let index := skipWs s (colloc + 1) s.length
        if s.length ≤ index then []
        else rtrimWs (s.drop index)

/-- `HumdrumLine::getUniversalReferenceKey`. -/
def getUniversalReferenceKey (s : List Char) : List Char :=
  if s.length < 6 then []
  else if ¬ s.take 4 = ['!', '!', '!', '!'] then []
  else if s.getD 4 nulChar = '!' then []
  else
    match findChar s ':' with
    | none => []
    | some colloc =>
        let index := skipWs s 4 colloc
        if colloc ≤ index then []
        else keyTrim ((s.drop index).take (colloc - index))

/-- `HumdrumLine::getUniversalReferenceValue`. -/
def getUniversalReferenceValue (s : List Char) : List Char :=
  if s.length < 6 then []
  else if ¬ s.take 4 = ['!', '!', '!', '!'] then []
  else if s.getD 4 nulChar = '!' then []
  else
    match findChar s ':' with
    | none => []
    | some colloc =>
        let index := skipWs s (colloc + 1) s.length
        if s.length ≤ index then []
        else rtrimWs (s.drop index)

/-- `HumdrumLine::getReferenceKey`: dispatch on whether the fourth
character is an exclamation point. -/
def getReferenceKey (s : List Char) : List Char :=
  if s.length < 4 then []
  else if ¬ s.take 3 = ['!', '!', '!'] then []
  else if ¬ s.getD 3 nulChar = '!' then getGlobalReferenceKey s
  else getUniversalReferenceKey s

/-- `HumdrumLine::getReferenceValue`: dispatch like `getReferenceKey`. -/
def getReferenceValue (s : List Char) : List Char :=
  if s.length < 4 then []
  else if ¬ s.take 3 = ['!', '!', '!'] then []
  else if ¬ s.getD 3 nulChar = '!' then getGlobalReferenceValue s
  else getUniversalReferenceValue s

/-- Loop state of `HumdrumLine::createTokensFromLine`: the token vector so
far, the tab-width vector so far, and the pending field text `tstring`. -/
structure TokState where
  toks : List (Option (List Char))
  tabs : List Nat
  tstr : List Char

/-- `m_tabs.back()++` guarded by `m_tabs.size() > 0`. -/
def incLastTab (tabs : List Nat) : List Nat :=
  if tabs = [] then tabs else tabs.dropLast ++ [tabs.getLastD 0 + 1]

/-- The character loop of `createTokensFromLine`: on a tab following a
non-tab the pending field is pushed with width 1 and `tstring` cleared; on
a tab following a tab the last stored width is incremented; any other
character is appended to `tstring`.  `lastch` is the previous character
(0 before the first iteration). -/
def splitLoop : Char → List Char → TokState → TokState
  | _, [], st => st
  | lastch, ch :: rest, st =>
      if ch = '\t' then
        if lastch ≠ '\t' then
          splitLoop ch rest ⟨st.toks ++ [some st.tstr], st.tabs ++ [1], []⟩
        else
          splitLoop ch rest ⟨st.toks, incLastTab st.tabs, st.tstr⟩
      else
        splitLoop ch rest ⟨st.toks, st.tabs, st.tstr ++ [ch]⟩

/-- The epilogue of `createTokensFromLine`: a non-empty pending `tstring`
is pushed as a final token with stored width 0. -/
def finalPush (st : TokState) : List (Option (List Char)) × List Nat :=
  if 0 < st.tstr.length then (st.toks ++ [some st.tstr], st.tabs ++ [0])
  else (st.toks, st.tabs)

/-- `HumdrumLine::createTokensFromLine`: an empty line pushes one
empty-text token AND a NULL pointer into the token vector (the source
line is `m_tokens.push_back(0);`); a line starting with two exclamation
points is kept as a single literal token of width 0; otherwise the
character loop splits on tabs. -/
def createTokensFromLine (s : List Char) : List (Option (List Char)) × List Nat :=
  if s.length = 0 then
    finalPush ⟨[some [], none], [], []⟩
  else if s.take 2 = ['!', '!'] then
    finalPush ⟨[some s], [0], []⟩
  else
    finalPush (splitLoop nulChar s ⟨[], [], []⟩)

/-- The prologue of `HumdrumLine::createLineFromTokens`: a trailing NULL
token is removed from the vector before joining. -/
def dropTrailingNull (toks : List (Option (List Char))) : List (Option (List Char)) :=
  match toks.getLast? with
  | some none => toks.dropLast
  | _ => toks

/-- The joining loop of `createLineFromTokens`, as a structural recursion
over the remaining tokens with the remaining tab widths.  At a boundary
(any token but the last) the source first extends `m_tabs` with entries
of value 1 up to the token count if it is too short — when the remaining
width list is empty, the extension supplies width 1 for this and every
later boundary, which is `List.replicate` over the remaining token count —
then replaces a stored width 0 by 1, and emits that many tab characters.
Dereferencing a token pointer is modelled by `Option.getD` (the sources
only call this after dropping the trailing NULL).  Returns the rebuilt
text together with the updated width list. -/
def clftGo : List (Option (List Char)) → List Nat → List Char × List Nat
  | [], tabs => ([], tabs)
  | [t], tabs => (t.getD [], tabs)
  | t :: t2 :: rest, tabs =>
      let tabs1 := if tabs = [] then List.replicate (rest.length + 2) 1 else tabs
      let w := match tabs1.headD 0 with
               | 0 => 1
               | k + 1 => k + 1
      let res := clftGo (t2 :: rest) tabs1.tail
      (t.getD [] ++ List.replicate w '\t' ++ res.1, w :: res.2)

/-- `HumdrumLine::createLineFromTokens`: drop a trailing NULL token, then
join token texts with the stored widths (0 and missing widths read as 1).
Returns the rebuilt line text and the mutated token and width vectors. -/
def createLineFromTokens (toks : List (Option (List Char))) (tabs : List Nat) :
    List Char × (List (Option (List Char)) × List Nat) :=
  let toks2 := dropTrailingNull toks
  let r := clftGo toks2 tabs
  (r.1, (toks2, r.2))

/-- Join plain token texts with explicit per-boundary widths, a stored 0
or a missing entry counting as 1.  Proof-side description of the text
component of `clftGo`. -/
def joinT : List (List Char) → List Nat → List Char
  | [], _ => []
  | [t], _ => t
  | t :: t2 :: rest, ws =>
      t ++ List.replicate (max (ws.headD 0) 1) '\t' ++ joinT (t2 :: rest) ws.tail

/-- The inner digit-accumulation loop of `HumdrumLine::analyzeTracks`
(`track = track * 10 + (info[k] - '0')`, breaking at the first
non-digit). -/
def digAccum : Nat → List Char → Nat
  | acc, [] => acc
  | acc, c :: rest =>
      if c.isDigit then digAccum (acc * 10 + (c.toNat - 48)) rest else acc

/-- The track-extraction scan of `analyzeTracks`: find the first digit of
the spine-info string, accumulate the digit run that starts there, and
break; with no digit the track stays 0. -/
def firstTrack : List Char → Nat
  | [] => 0
  | c :: rest => if c.isDigit then digAccum (c.toNat - 48) rest else firstTrack rest

/-- Value of the first maximal run of decimal digits of a string (0 when
there is no digit).  Spec-side description of `firstTrack`, written with
the claim's words rather than from the source loop. -/
def specFirstRun (info : List Char) : Nat :=
  ((info.dropWhile (fun c => !c.isDigit)).takeWhile Char.isDigit).foldl
    (fun a c => a * 10 + (c.toNat - 48)) 0

/-- The subtrack-assignment loop of `analyzeTracks`: tokens whose track
has more than one occurrence on the line get the incremented running
counter `cursub` for that track; tracks with a single occurrence get 0.
The source's `subtracks` and `cursub` vectors (indexed in bounds by the
track number) are modelled as total functions. -/
def assignSub : List Nat → (Nat → Nat) → (Nat → Nat) → List Nat
  | [], _, _ => []
  | t :: rest, subcnt, cursub =>
      if 1 < subcnt t then
        (cursub t + 1) ::
          assignSub rest subcnt (fun x => if x = t then cursub t + 1 else cursub x)
      else
        0 :: assignSub rest subcnt cursub

/-- `HumdrumLine::analyzeTracks`, per line, on the list of its tokens'
spine-info strings: first pass sets each token's track from its info
string; second pass accumulates per-track occurrence counts (the
`subtracks[track]++` loop is occurrence counting); third pass assigns
subtracks.  Returns the (track, subtrack) pair per token. -/
def analyzeTracks (infos : List (List Char)) : List (Nat × Nat) :=
  let tracks := infos.map firstTrack
  let subcnt : Nat → Nat := fun t => tracks.count t
  tracks.zip (assignSub tracks subcnt (fun _ => 0))

/-- The duration-related per-line state of a `HumdrumLine`: its text, its
token data, the rhythm-analysis gate, whether `m_owner` is non-NULL, and
the four `HumNum` duration-window fields. -/
structure LineModel where
  text : List Char
  toks : List (Option (List Char))
  tabs : List Nat
  rhythmAnalyzed : Bool
  hasOwner : Bool
  mduration : Rat
  mdurationFromStart : Rat
  mdurationFromBarline : Rat
  mdurationToBarline : Rat

/-- The owning `HumdrumFile`, abstracted to what the line accessors call:
`analyzeRhythmStructure` (an arbitrary update of the line's state) and
`getScoreDuration`. -/
structure OwnerModel where
  analyzeRhythmStructure : LineModel → LineModel
  scoreDuration : Rat

/-- The common preamble of the duration accessors: when the gate is unset
and the line has an owner, run the owner's rhythm analysis (which mutates
this line's state); otherwise leave the state alone. -/
def maybeAnalyze (ow : OwnerModel) (st : LineModel) : LineModel :=
  if st.rhythmAnalyzed = false then
    if st.hasOwner then ow.analyzeRhythmStructure st else st
  else st

/-- `HumdrumLine::getDuration`. -/
def getDuration (ow : OwnerModel) (st : LineModel) : Rat :=
  (maybeAnalyze ow st).mduration

/-- `HumdrumLine::getDurationFromStart`. -/
def getDurationFromStart (ow : OwnerModel) (st : LineModel) : Rat :=
  (maybeAnalyze ow st).mdurationFromStart

/-- `HumdrumLine::getDurationFromBarline`. -/
def getDurationFromBarline (ow : OwnerModel) (st : LineModel) : Rat :=
  (maybeAnalyze ow st).mdurationFromBarline

/-- `HumdrumLine::getDurationToBarline`. -/
def getDurationToBarline (ow : OwnerModel) (st : LineModel) : Rat :=
  (maybeAnalyze ow st).mdurationToBarline

/-- `HumdrumLine::getBarlineDuration`: after the gate preamble, a barline
line returns its duration to the next barline, any other line the sum of
its durations from and to the surrounding barlines. -/
def getBarlineDuration (ow : OwnerModel) (st : LineModel) : Rat :=
  let st2 := maybeAnalyze ow st
  if isBarline st2.text then getDurationToBarline ow st2
  else getDurationFromBarline ow st2 + getDurationToBarline ow st2

/-- `HumdrumLine::getDurationToEnd`, exactly as in the source: when the
gate is UNSET the owner (if any) is asked to analyze and the score
duration minus the line's start offset is returned (with no owner the
source then dereferences the NULL owner for `getScoreDuration`; the model
reads the abstract score duration); when the gate is already SET the
function returns 0 — the `else` branch sits on the outer gate test. -/
def getDurationToEnd (ow : OwnerModel) (st : LineModel) : Rat :=
  if st.rhythmAnalyzed = false then
    let st2 := if st.hasOwner then ow.analyzeRhythmStructure st else st
    ow.scoreDuration - st2.mdurationFromStart
  else 0

/-- Modelled from the spec: the in-class default initializers of
`m_durationFromBarline` and `m_durationToBarline` (and of the line's
`m_rhythm_analyzed` gate) are not among the provided sources — the
shipped `HumdrumLine.h` is an older vintage without those members.  The
spec states all duration-window fields are left at a negative
"unanalyzed" sentinel until the Duration Propagator runs, so the missing
defaults are -1 (and the gate starts unset). -/
def specInitDurationFromBarline : Rat := -1

/-- Modelled from the spec: see `specInitDurationFromBarline`. -/
def specInitDurationToBarline : Rat := -1

/-- Modelled from the spec: see `specInitDurationFromBarline`. -/
def specInitRhythmAnalyzed : Bool := false

/-- The default constructor `HumdrumLine::HumdrumLine(void)`: no owner,
`m_duration` and `m_durationFromStart` set to -1, the remaining members
at their in-class defaults, no tokenization. -/
def mkLineEmpty : LineModel :=
  { text := [], toks := [], tabs := [],
    rhythmAnalyzed := specInitRhythmAnalyzed, hasOwner := false,
    mduration := -1, mdurationFromStart := -1,
    mdurationFromBarline := specInitDurationFromBarline,
    mdurationToBarline := specInitDurationToBarline }

/-- The trailing carriage-return strip performed by the string
constructors. -/
def stripCarriageReturn (s : List Char) : List Char :=
  if 0 < s.length ∧ s.getLastD nulChar = Char.ofNat 13 then s.dropLast else s

/-- The constructor `HumdrumLine::HumdrumLine(const string&)`: strip a
trailing carriage return, set `m_duration` and `m_durationFromStart` to
-1, then tokenize the line. -/
def mkLineFromString (s : List Char) : LineModel :=
  let t := stripCarriageReturn s
  { text := t, toks := (createTokensFromLine t).1, tabs := (createTokensFromLine t).2,
    rhythmAnalyzed := specInitRhythmAnalyzed, hasOwner := false,
    mduration := -1, mdurationFromStart := -1,
    mdurationFromBarline := specInitDurationFromBarline,
    mdurationToBarline := specInitDurationToBarline }

/-- The constructor `HumdrumLine::HumdrumLine(const char*)`, whose body is
identical to the `const string&` constructor. -/
def mkLineFromCStr (s : List Char) : LineModel :=
  let t := stripCarriageReturn s
  { text := t, toks := (createTokensFromLine t).1, tabs := (createTokensFromLine t).2,
    rhythmAnalyzed := specInitRhythmAnalyzed, hasOwner := false,
    mduration := -1, mdurationFromStart := -1,
    mdurationFromBarline := specInitDurationFromBarline,
    mdurationToBarline := specInitDurationToBarline }

/-- Concrete owner used by the failing-input evaluation of
`getDurationToEnd`: the analysis pass is the identity and the score
duration is 9. -/
def owEx : OwnerModel := { analyzeRhythmStructure := fun st => st, scoreDuration := 9 }

/-- Concrete already-analyzed line state used by the failing-input
evaluation: owned, gate set, and a cached start offset of 5. -/
def stEx : LineModel :=
  { text := ['4', 'c'], toks := [some ['4', 'c']], tabs := [0],
    rhythmAnalyzed := true, hasOwner := true,
    mduration := 1, mdurationFromStart := 5,
    mdurationFromBarline := 2, mdurationToBarline := 2 }

/-! ## Helper lemmas -/

theorem equalChar_cons_zero (c : Char) (rest : List Char) (x : Char) :
    equalChar (c :: rest) 0 x = decide (c = x) := by
  unfold equalChar
  rw [if_neg (by simp only [List.length_cons]; omega), if_neg (by omega)]
  simp only [Int.toNat_zero, List.getD_cons_zero]
  split <;> simp_all

theorem incLastTab_concat (tabs : List Nat) (j : Nat) :
    incLastTab (tabs ++ [j]) = tabs ++ [j + 1] := by
  unfold incLastTab
  rw [if_neg (by simp), List.dropLast_concat, List.getLastD_concat]

theorem getLastD_mem (l : List Char) (d : Char) (h : ¬ l = []) :
    l.getLastD d ∈ l := by
  induction l generalizing d with
  | nil => exact absurd rfl h
  | cons a l2 ih =>
      rw [List.getLastD_cons]
      by_cases h2 : l2 = []
      · subst h2
        simp
      · exact List.mem_cons_of_mem a (ih a h2)

theorem dropWhile_head_not {α : Type} (p : α → Bool) (l : List α) (x : α)
    (h : (l.dropWhile p).head? = some x) : p x = false := by
  induction l with
  | nil => simp [List.dropWhile] at h
  | cons a l2 ih =>
      rw [List.dropWhile_cons] at h
      by_cases hp : p a = true
      · rw [if_pos hp] at h
        exact ih h
      · rw [if_neg hp] at h
        simp at h
        subst h
        simp at hp
        simp [hp]

theorem splitLoop_accum (t : List Char) :
    ∀ (lc : Char) (rest : List Char) (st : TokState), '\t' ∉ t →
      splitLoop lc (t ++ rest) st =
        splitLoop (t.getLastD lc) rest ⟨st.toks, st.tabs, st.tstr ++ t⟩ := by
  induction t with
  | nil =>
      intro lc rest st _
      simp
  | cons c t2 ih =>
      intro lc rest st hfree
      have hc : ¬ c = '\t' := by
        intro hc
        exact hfree (hc ▸ List.mem_cons_self c t2)
      have hfree2 : '\t' ∉ t2 := fun hm => hfree (List.mem_cons_of_mem c hm)
      rw [List.cons_append]
      show splitLoop lc (c :: (t2 ++ rest)) st = _
      rw [show splitLoop lc (c :: (t2 ++ rest)) st =
          splitLoop c (t2 ++ rest) ⟨st.toks, st.tabs, st.tstr ++ [c]⟩ by
        simp only [splitLoop]
        rw [if_neg hc]]
      rw [ih c rest ⟨st.toks, st.tabs, st.tstr ++ [c]⟩ hfree2]
      rw [List.getLastD_cons]
      simp [List.append_assoc]

theorem splitLoop_tabs_inc (m : Nat) :
    ∀ (rest : List Char) (toks : List (Option (List Char))) (tabs : List Nat)
      (j : Nat) (tstr : List Char),
      splitLoop '\t' (List.replicate m '\t' ++ rest) ⟨toks, tabs ++ [j], tstr⟩ =
        splitLoop '\t' rest ⟨toks, tabs ++ [j + m], tstr⟩ := by
  induction m with
  | zero =>
      intro rest toks tabs j tstr
      simp
  | succ m2 ih =>
      intro rest toks tabs j tstr
      rw [List.replicate_succ, List.cons_append]
      rw [show splitLoop '\t' ('\t' :: (List.replicate m2 '\t' ++ rest))
            ⟨toks, tabs ++ [j], tstr⟩ =
          splitLoop '\t' (List.replicate m2 '\t' ++ rest)
            ⟨toks, incLastTab (tabs ++ [j]), tstr⟩ by
        simp [splitLoop]]
      rw [incLastTab_concat, ih]
      have harith : j + 1 + m2 = j + (m2 + 1) := by omega
      rw [harith]

theorem splitLoop_tabrun (k : Nat) (rest : List Char) (st : TokState) (lc : Char)
    (hlc : ¬ lc = '\t') (hk : 1 ≤ k) :
    splitLoop lc (List.replicate k '\t' ++ rest) st =
      splitLoop '\t' rest ⟨st.toks ++ [some st.tstr], st.tabs ++ [k], []⟩ := by
  obtain ⟨m, rfl⟩ : ∃ m, k = m + 1 := ⟨k - 1, by omega⟩
  rw [List.replicate_succ, List.cons_append]
  rw [show splitLoop lc ('\t' :: (List.replicate m '\t' ++ rest)) st =
      splitLoop '\t' (List.replicate m '\t' ++ rest)
        ⟨st.toks ++ [some st.tstr], st.tabs ++ [1], []⟩ by
    simp [splitLoop, hlc]]
  rw [splitLoop_tabs_inc]
  have harith : 1 + m = m + 1 := by omega
  rw [harith]

theorem splitLoop_joinT (ts : List (List Char)) :
    ∀ (ws : List Nat) (toks : List (Option (List Char))) (tabs : List Nat) (lc : Char),
      ¬ ts = [] →
      (∀ t ∈ ts, '\t' ∉ t) →
      (∀ t ∈ ts.tail, ¬ t = []) →
      (∀ w ∈ ws, 1 ≤ w) →
      ws.length + 1 = ts.length →
      ¬ ts.getLast? = some [] →
      (¬ lc = '\t' ∨ ¬ ts.headD [] = []) →
      finalPush (splitLoop lc (joinT ts ws) ⟨toks, tabs, []⟩) =
        (toks ++ ts.map some, tabs ++ (ws ++ [0])) := by
  induction ts with
  | nil =>
      intro ws toks tabs lc hne
      exact absurd rfl hne
  | cons t ts2 ih =>
      intro ws toks tabs lc hne hfree htail hws hlen hlast hlc
      cases ts2 with
      | nil =>
          have hws0 : ws = [] := by
            have : ws.length = 0 := by simpa using hlen
            simpa [List.length_eq_zero] using this
          subst hws0
          have htne : ¬ t = [] := by
            intro h
            exact hlast (by simp [h])
          have hfree1 : '\t' ∉ t := hfree t (List.mem_cons_self t [])
          have hsl : splitLoop lc (joinT [t] []) ⟨toks, tabs, []⟩ =
              ⟨toks, tabs, t⟩ := by
            have h1 := splitLoop_accum t lc [] ⟨toks, tabs, []⟩ hfree1
            simp only [List.append_nil, List.nil_append] at h1
            rw [show joinT [t] [] = t from rfl, h1]
            simp [splitLoop]
          rw [hsl]
          unfold finalPush
          rw [if_pos (by simp [List.length_pos, htne])]
          simp
      | cons t2 ts3 =>
          cases ws with
          | nil => simp at hlen
          | cons w ws2 =>
              have hw : 1 ≤ w := hws w (List.mem_cons_self w ws2)
              have hfree1 : '\t' ∉ t := hfree t (List.mem_cons_self t (t2 :: ts3))
              have hjoin : joinT (t :: t2 :: ts3) (w :: ws2) =
                  t ++ (List.replicate w '\t' ++ joinT (t2 :: ts3) ws2) := by
                simp only [joinT, List.headD_cons, List.tail_cons]
                rw [Nat.max_eq_left hw, List.append_assoc]
              have hlc2 : ¬ t.getLastD lc = '\t' := by
                by_cases ht : t = []
                · subst ht
                  simp only [List.getLastD_nil]
                  rcases hlc with h | h
                  · exact h
                  · exact absurd (by simp) h
                · intro hcontra
                  exact hfree1 (hcontra ▸ getLastD_mem t lc ht)
              rw [hjoin, splitLoop_accum t lc _ ⟨toks, tabs, []⟩ hfree1]
              show finalPush (splitLoop (t.getLastD lc)
                (List.replicate w '\t' ++ joinT (t2 :: ts3) ws2)
                ⟨toks, tabs, [] ++ t⟩) = _
              rw [List.nil_append,
                splitLoop_tabrun w (joinT (t2 :: ts3) ws2) ⟨toks, tabs, t⟩
                  (t.getLastD lc) hlc2 hw]
              have hres := ih ws2 (toks ++ [some t]) (tabs ++ [w]) '\t'
                (by simp)
                (fun x hx => hfree x (List.mem_cons_of_mem t hx))
                (fun x hx => htail x (List.mem_cons_of_mem t2 hx))
                (fun x hx => hws x (List.mem_cons_of_mem w hx))
                (by simpa using hlen)
                (by rwa [List.getLast?_cons_cons] at hlast)
                (Or.inr (htail t2 (List.mem_cons_self t2 ts3)))
              rw [hres]
              simp [List.append_assoc]

theorem tab_run_decomp (s : List Char) :
    s.head? = some '\t' →
    ∃ k rest, 1 ≤ k ∧ s = List.replicate k '\t' ++ rest ∧
      ¬ rest.head? = some '\t' ∧ rest.length + k = s.length := by
  induction s with
  | nil => intro hs; simp at hs
  | cons c s2 ih =>
      intro hs
      have hc : c = '\t' := by simpa using hs
      subst hc
      by_cases h2 : s2.head? = some '\t'
      · obtain ⟨k2, rest, hk2, hdec, hrh, hlen⟩ := ih h2
        refine ⟨k2 + 1, rest, by omega, ?_, hrh, by simp; omega⟩
        rw [List.replicate_succ, List.cons_append, ← hdec]
      · exact ⟨1, s2, le_refl 1, by simp, h2, by simp⟩

theorem tokenize_split_inv_base (lc : Char)
    (toks : List (Option (List Char))) (tabs : List Nat) (pre : List Char)
    (hpre : '\t' ∉ pre) (hne : ¬ pre = []) :
    ∃ ts ws wlast,
      finalPush (splitLoop lc [] ⟨toks, tabs, pre⟩) =
        (toks ++ ts.map some, tabs ++ (ws ++ [wlast])) ∧
      ¬ ts = [] ∧
      (∀ t ∈ ts, '\t' ∉ t) ∧
      (∀ t ∈ ts.tail, ¬ t = []) ∧
      (∀ w ∈ ws, 1 ≤ w) ∧
      ws.length + 1 = ts.length ∧
      pre ++ [] = joinT ts ws ++ List.replicate wlast '\t' ∧
      ts.headD [] = pre ++ ([] : List Char).takeWhile (fun c => ¬ c = '\t') := by
  refine ⟨[pre], [], 0, ?_, by simp, by simpa using hpre, by simp, by simp,
    by simp, by simp [joinT], by simp⟩
  show finalPush ⟨toks, tabs, pre⟩ = _
  unfold finalPush
  rw [if_pos (by simp [List.length_pos, hne])]
  simp

theorem tokenize_split_inv (n : Nat) :
    ∀ (s : List Char), s.length ≤ n →
    ∀ (lc : Char) (toks : List (Option (List Char))) (tabs : List Nat) (pre : List Char),
      '\t' ∉ pre →
      (¬ lc = '\t' ∨ ¬ s.head? = some '\t') →
      ¬ pre ++ s = [] →
      ∃ ts ws wlast,
        finalPush (splitLoop lc s ⟨toks, tabs, pre⟩) =
          (toks ++ ts.map some, tabs ++ (ws ++ [wlast])) ∧
        ¬ ts = [] ∧
        (∀ t ∈ ts, '\t' ∉ t) ∧
        (∀ t ∈ ts.tail, ¬ t = []) ∧
        (∀ w ∈ ws, 1 ≤ w) ∧
        ws.length + 1 = ts.length ∧
        pre ++ s = joinT ts ws ++ List.replicate wlast '\t' ∧
        ts.headD [] = pre ++ s.takeWhile (fun c => ¬ c = '\t') := by
  induction n with
  | zero =>
      intro s hs lc toks tabs pre hpre hlc hne
      have hs0 : s = [] := by
        have := Nat.le_zero.mp hs
        simpa [List.length_eq_zero] using this
      subst hs0
      exact tokenize_split_inv_base lc toks tabs pre hpre (by simpa using hne)
  | succ n2 ihn =>
      intro s hs lc toks tabs pre hpre hlc hne
      cases s with
      | nil =>
          exact tokenize_split_inv_base lc toks tabs pre hpre (by simpa using hne)
      | cons c s2 =>
          by_cases hc : c = '\t'
          · subst hc
            have hlcl : ¬ lc = '\t' := by
              rcases hlc with h | h
              · exact h
              · exact absurd (by simp) h
            obtain ⟨k, rest, hk, hdec, hrh, hlenk⟩ :=
              tab_run_decomp ('\t' :: s2) (by simp)
            obtain ⟨m, rfl⟩ : ∃ m, k = m + 1 := ⟨k - 1, by omega⟩
            rw [hdec, splitLoop_tabrun (m + 1) rest ⟨toks, tabs, pre⟩ lc hlcl hk]
            cases rest with
            | nil =>
                refine ⟨[pre], [], m + 1, ?_, by simp, by simpa using hpre, by simp,
                  by simp, by simp, ?_,
                  by simp [List.replicate_succ, List.takeWhile_cons]⟩
                · show finalPush ⟨toks ++ [some pre], tabs ++ [m + 1], []⟩ = _
                  unfold finalPush
                  rw [if_neg (by simp)]
                  simp
                · simp [joinT]
            | cons r rest2 =>
                have hrne : ¬ r = '\t' := by
                  intro hcontra
                  exact hrh (by simp [hcontra])
                have hlen2 : (r :: rest2).length ≤ n2 := by
                  have hsl : ('\t' :: s2).length ≤ n2 + 1 := hs
                  omega
                obtain ⟨ts2, ws2, wlast2, heq2, hne2, hfree2, htail2, hws2,
                    hlen2b, hjoin2, hhead2⟩ :=
                  ihn (r :: rest2) hlen2 '\t' (toks ++ [some pre]) (tabs ++ [m + 1]) []
                    (by simp) (Or.inr (by simp [hrne])) (by simp)
                simp only [List.nil_append] at hjoin2 hhead2
                have hheadne : ¬ ts2.headD [] = [] := by
                  rw [hhead2]
                  simp [List.takeWhile_cons, hrne]
                refine ⟨pre :: ts2, (m + 1) :: ws2, wlast2, ?_, by simp, ?_, ?_, ?_,
                  by simpa using hlen2b, ?_, ?_⟩
                · rw [heq2]
                  simp [List.append_assoc]
                · intro x hx
                  rcases List.mem_cons.mp hx with h | h
                  · subst h; exact hpre
                  · exact hfree2 x h
                · intro x hx
                  simp only [List.tail_cons] at hx
                  cases ts2 with
                  | nil => exact absurd rfl hne2
                  | cons h2 t2s =>
                      rcases List.mem_cons.mp hx with h | h
                      · subst h
                        simpa using hheadne
                      · exact htail2 x (by simpa using h)
                · intro w hw
                  rcases List.mem_cons.mp hw with h | h
                  · subst h; exact hk
                  · exact hws2 w h
                · cases ts2 with
                  | nil => exact absurd rfl hne2
                  | cons h2 t2s =>
                      rw [hjoin2]
                      simp only [joinT, List.headD_cons, List.tail_cons]
                      rw [Nat.max_eq_left hk]
                      simp [List.append_assoc]
                · simp [List.replicate_succ, List.takeWhile_cons]
          · rw [show splitLoop lc (c :: s2) ⟨toks, tabs, pre⟩ =
                splitLoop c s2 ⟨toks, tabs, pre ++ [c]⟩ by
              simp only [splitLoop]
              rw [if_neg hc]]
            have hpre2 : '\t' ∉ pre ++ [c] := by
              intro hm
              rcases List.mem_append.mp hm with h | h
              · exact hpre h
              · simp at h
                exact hc h.symm
            obtain ⟨ts, ws, wlast, heq, hneb, hfreeb, htailb, hwsb, hlenb,
                hjoinb, hheadb⟩ :=
              ihn s2 (by simpa using hs) c toks tabs (pre ++ [c]) hpre2
                (Or.inl hc) (by simp)
            refine ⟨ts, ws, wlast, heq, hneb, hfreeb, htailb, hwsb, hlenb, ?_, ?_⟩
            · rw [← hjoinb]
              simp
            · rw [hheadb]
              simp [List.takeWhile_cons, hc]

theorem clftGo_text (ts : List (List Char)) :
    ∀ ws : List Nat, ws.length = ts.length →
      (clftGo (ts.map some) ws).1 = joinT ts ws := by
  induction ts with
  | nil =>
      intro ws _
      simp [clftGo, joinT]
  | cons t ts2 ih =>
      intro ws hlen
      cases ts2 with
      | nil =>
          simp [clftGo, joinT]
      | cons t2 ts3 =>
          cases ws with
          | nil => simp at hlen
          | cons w ws2 =>
              have hlen2 : ws2.length = (t2 :: ts3).length := by simpa using hlen
              simp only [List.map_cons]
              show ((some t).getD [] ++
                  List.replicate (match ((if (w :: ws2) = [] then
                    List.replicate ((ts3.map some).length + 2) 1
                  else w :: ws2).headD 0) with
                    | 0 => 1
                    | k + 1 => k + 1) '\t' ++
                  (clftGo (some t2 :: ts3.map some) (if (w :: ws2) = [] then
                    List.replicate ((ts3.map some).length + 2) 1
                  else w :: ws2).tail).1,
                  _).1 = joinT (t :: t2 :: ts3) (w :: ws2)
              rw [if_neg (by simp)]
              simp only [List.tail_cons, List.headD_cons, Option.getD_some]
              have hrec : (clftGo (some t2 :: ts3.map some) ws2).1 =
                  joinT (t2 :: ts3) ws2 := by
                have := ih ws2 hlen2
                simpa using this
              rw [hrec]
              simp only [joinT, List.headD_cons, List.tail_cons]
              cases w with
              | zero => rfl
              | succ k =>
                  rw [Nat.max_eq_left (by omega)]

theorem joinT_concat_irrel (ts : List (List Char)) :
    ∀ (ws : List Nat) (wl : Nat), ws.length + 1 = ts.length →
      joinT ts (ws ++ [wl]) = joinT ts ws := by
  induction ts with
  | nil => intro ws wl hlen; simp at hlen
  | cons t ts2 ih =>
      intro ws wl hlen
      cases ts2 with
      | nil => simp [joinT]
      | cons t2 ts3 =>
          cases ws with
          | nil => simp at hlen
          | cons w ws2 =>
              simp only [List.cons_append, joinT, List.headD_cons, List.tail_cons]
              rw [ih ws2 wl (by simpa using hlen)]

theorem map_some_getLast? (ts : List (List Char)) (h : ¬ ts = []) :
    ∃ y, (ts.map some).getLast? = some (some y) := by
  induction ts with
  | nil => exact absurd rfl h
  | cons t ts2 ih =>
      cases ts2 with
      | nil => exact ⟨t, by simp⟩
      | cons t2 ts3 =>
          obtain ⟨y, hy⟩ := ih (by simp)
          refine ⟨y, ?_⟩
          simp only [List.map_cons] at hy ⊢
          rwa [List.getLast?_cons_cons]

theorem dropTrailingNull_map_some (ts : List (List Char)) :
    dropTrailingNull (ts.map some) = ts.map some := by
  cases hts : ts with
  | nil => rfl
  | cons t ts2 =>
      obtain ⟨y, hy⟩ := map_some_getLast? (t :: ts2) (by simp)
      unfold dropTrailingNull
      rw [hy]

theorem take2_of_append_replicate (text : List Char) (wl : Nat)
    (h : ¬ (text ++ List.replicate wl '\t').take 2 = ['!', '!']) :
    ¬ text.take 2 = ['!', '!'] := by
  intro h2
  apply h
  cases text with
  | nil => simp at h2
  | cons a t1 =>
      cases t1 with
      | nil => simp at h2
      | cons b t2 =>
          simp only [List.take_succ_cons, List.take_zero] at h2 ⊢
          have ha : a = '!' := by
            have := congrArg (fun l => List.headD l ' ') h2
            simpa using this
          have hb : b = '!' := by
            have := congrArg (fun l => List.headD (List.tail l) ' ') h2
            simpa using this
          simp [ha, hb]

theorem mem_of_getLast?_eq {l : List (List Char)} {a : List Char}
    (h : l.getLast? = some a) : a ∈ l := by
  induction l with
  | nil => simp at h
  | cons t ts2 ih =>
      cases ts2 with
      | nil =>
          have ht : t = a := by simpa using h
          simp [← ht]
      | cons t2 ts3 =>
          rw [List.getLast?_cons_cons] at h
          exact List.mem_cons_of_mem t (ih h)

theorem digAccum_eq_foldl (rest : List Char) (acc : Nat) :
    digAccum acc rest =
      (rest.takeWhile Char.isDigit).foldl (fun a c => a * 10 + (c.toNat - 48)) acc := by
  induction rest generalizing acc with
  | nil => rfl
  | cons c rest ih =>
      by_cases hc : c.isDigit
      · simp [digAccum, List.takeWhile_cons, hc, ih]
      · simp [digAccum, List.takeWhile_cons, hc]

theorem firstTrack_spec (info : List Char) : firstTrack info = specFirstRun info := by
  induction info with
  | nil => rfl
  | cons c rest ih =>
      by_cases hc : c.isDigit
      · simp [firstTrack, specFirstRun, List.dropWhile_cons, List.takeWhile_cons, hc,
          digAccum_eq_foldl]
      · simpa [firstTrack, specFirstRun, List.dropWhile_cons, hc] using ih

theorem assignSub_length (ts : List Nat) (subcnt cursub : Nat → Nat) :
    (assignSub ts subcnt cursub).length = ts.length := by
  induction ts generalizing cursub with
  | nil => rfl
  | cons t rest ih =>
      unfold assignSub
      split <;> simp [ih]

theorem assignSub_getD (ts : List Nat) (subcnt cursub : Nat → Nat)
    (done : List Nat) (i : Nat) (hi : i < ts.length)
    (hcur : ∀ x, 1 < subcnt x → cursub x = done.count x) :
    (assignSub ts subcnt cursub).getD i 0 =
      if 1 < subcnt (ts.getD i 0) then
        (done ++ ts.take (i + 1)).count (ts.getD i 0)
      else 0 := by
  induction ts generalizing cursub done i with
  | nil => exact absurd hi (by simp)
  | cons t rest ih =>
      by_cases htt : 1 < subcnt t
      · have hstep : assignSub (t :: rest) subcnt cursub =
            (cursub t + 1) ::
              assignSub rest subcnt (fun x => if x = t then cursub t + 1 else cursub x) := by
          simp only [assignSub]
          rw [if_pos htt]
        rw [hstep]
        cases i with
        | zero =>
            simp only [List.getD_cons_zero, List.take_succ_cons, List.take_zero,
              if_pos htt]
            rw [hcur t htt]
            simp [List.count_append]
        | succ j =>
            have hj : j < rest.length := by simpa using hi
            have hcur2 : ∀ x, 1 < subcnt x →
                (fun x => if x = t then cursub t + 1 else cursub x) x =
                  (done ++ [t]).count x := by
              intro x hx
              by_cases hxt : x = t
              · subst hxt
                simp [List.count_append, hcur x hx]
              · simp [hxt, List.count_append, List.count_cons, hcur x hx]
            have hx := ih (fun x => if x = t then cursub t + 1 else cursub x)
              (done ++ [t]) j hj hcur2
            rw [List.append_assoc, List.singleton_append] at hx
            simp only [List.getD_cons_succ, List.take_succ_cons]
            exact hx
      · have hstep : assignSub (t :: rest) subcnt cursub =
            0 :: assignSub rest subcnt cursub := by
          simp only [assignSub]
          rw [if_neg htt]
        rw [hstep]
        cases i with
        | zero =>
            rw [List.getD_cons_zero, List.getD_cons_zero, if_neg htt]
        | succ j =>
            have hj : j < rest.length := by simpa using hi
            have hcur2 : ∀ x, 1 < subcnt x → cursub x = (done ++ [t]).count x := by
              intro x hx
              have hxt : ¬ x = t := by
                intro hxt
                exact htt (hxt ▸ hx)
              simp [List.count_append, List.count_cons, hxt, hcur x hx]
            have hx := ih cursub (done ++ [t]) j hj hcur2
            rw [List.append_assoc, List.singleton_append] at hx
            simp only [List.getD_cons_succ, List.take_succ_cons]
            exact hx

/-! ## Claim theorems -/

/-- Claim C1, counterexample: for the two-character line of one letter
followed by one tab, the round trip through `createLineFromTokens` and
`createTokensFromLine` preserves the token texts but NOT the stored
per-boundary tab counts: the width stored after the final token drops
from 1 (the trailing tab of the original text) to 0, so the claimed
identity of the tab counts fails. -/
theorem claim_c1_counterexample :
    (createTokensFromLine ((createLineFromTokens (createTokensFromLine ['a', '\t']).1
        (createTokensFromLine ['a', '\t']).2).1)).1 =
      (createTokensFromLine ['a', '\t']).1 ∧
    ¬ (createTokensFromLine ((createLineFromTokens (createTokensFromLine ['a', '\t']).1
        (createTokensFromLine ['a', '\t']).2).1)).2 =
      (createTokensFromLine ['a', '\t']).2 := by
  decide

/-- Claim C1, amended: for every line text, reconstructing with
`createLineFromTokens` and re-tokenizing with `createTokensFromLine`
yields the identical token-text sequence up to the trailing null-marker
entry, and identical stored tab counts at every boundary BETWEEN
consecutive tokens; only the width entry stored after the final token
(the count of trailing separators, which the reconstruction does not
emit) may change. -/
theorem claim_c1_amended (s : List Char) :
    dropTrailingNull (createTokensFromLine
        ((createLineFromTokens (createTokensFromLine s).1
          (createTokensFromLine s).2).1)).1 =
      dropTrailingNull (createTokensFromLine s).1 ∧
    ∀ i : Nat, i + 1 < (dropTrailingNull (createTokensFromLine s).1).length →
      (createTokensFromLine
        ((createLineFromTokens (createTokensFromLine s).1
          (createTokensFromLine s).2).1)).2[i]? =
      (createTokensFromLine s).2[i]? := by
  by_cases hnil : s = []
  · subst hnil
    constructor
    · decide
    · intro i hi
      have h1 : (dropTrailingNull (createTokensFromLine ([] : List Char)).1).length
          = 1 := by decide
      rw [h1] at hi
      omega
  by_cases hbb : s.take 2 = ['!', '!']
  · have hlen : ¬ s.length = 0 := fun h => hnil (List.length_eq_zero.mp h)
    have htok : createTokensFromLine s = ([some s], [0]) := by
      unfold createTokensFromLine
      rw [if_neg hlen, if_pos hbb]
      unfold finalPush
      rw [if_neg (by simp)]
    have hclft : (createLineFromTokens (createTokensFromLine s).1
        (createTokensFromLine s).2).1 = s := by
      rw [htok]
      show (clftGo (dropTrailingNull [some s]) [0]).1 = s
      rw [show dropTrailingNull [some s] = [some s] from
        dropTrailingNull_map_some [s]]
      rfl
    refine ⟨by rw [hclft], fun i hi => by rw [hclft]⟩
  · have hlen : ¬ s.length = 0 := fun h => hnil (List.length_eq_zero.mp h)
    have htok : createTokensFromLine s =
        finalPush (splitLoop nulChar s ⟨[], [], []⟩) := by
      unfold createTokensFromLine
      rw [if_neg hlen, if_neg hbb]
    obtain ⟨ts, ws, wlast, heq, hne, hfree, htail, hws, hlenb, hjoin, hhead⟩ :=
      tokenize_split_inv s.length s (le_refl _) nulChar [] [] [] (by simp)
        (Or.inl (by decide)) (by simpa using hnil)
    simp only [List.nil_append] at heq hjoin hhead
    have htok2 : createTokensFromLine s = (ts.map some, ws ++ [wlast]) := by
      rw [htok, heq]
    have hlenws : (ws ++ [wlast]).length = ts.length := by
      simp only [List.length_append, List.length_cons, List.length_nil]
      omega
    have htext : (createLineFromTokens (createTokensFromLine s).1
        (createTokensFromLine s).2).1 = joinT ts ws := by
      rw [htok2]
      show (clftGo (dropTrailingNull (ts.map some)) (ws ++ [wlast])).1 = _
      rw [dropTrailingNull_map_some, clftGo_text ts (ws ++ [wlast]) hlenws,
        joinT_concat_irrel ts ws wlast hlenb]
    by_cases hjoinnil : joinT ts ws = []
    · have hts : ts = [[]] := by
        cases ts with
        | nil => exact absurd rfl hne
        | cons t ts2 =>
            cases ts2 with
            | nil =>
                have ht : t = [] := by simpa [joinT] using hjoinnil
                rw [ht]
            | cons t2 ts3 =>
                exfalso
                simp [joinT, List.replicate_eq_nil_iff] at hjoinnil
      subst hts
      have hws0 : ws = [] := by
        have : ws.length = 0 := by simpa using hlenb
        simpa [List.length_eq_zero] using this
      subst hws0
      have htext2 : (createLineFromTokens (createTokensFromLine s).1
          (createTokensFromLine s).2).1 = [] := htext.trans hjoinnil
      constructor
      · rw [htext2, htok2]
        show dropTrailingNull (createTokensFromLine ([] : List Char)).1 =
          dropTrailingNull (List.map some [[]])
        decide
      · intro i hi
        rw [htok2] at hi
        have h1 : (dropTrailingNull (List.map some [[]])).length = 1 := by decide
        rw [h1] at hi
        omega
    · have hbbtext : ¬ (joinT ts ws).take 2 = ['!', '!'] :=
        take2_of_append_replicate _ wlast (by rw [← hjoin]; exact hbb)
      have hjoinlen : ¬ (joinT ts ws).length = 0 :=
        fun h => hjoinnil (List.length_eq_zero.mp h)
      have hlast : ¬ ts.getLast? = some [] := by
        intro hcontra
        cases ts with
        | nil => exact hne rfl
        | cons t ts2 =>
            cases ts2 with
            | nil =>
                have ht : t = [] := by simpa using hcontra
                exact hjoinnil (by simp [joinT, ht])
            | cons t2 ts3 =>
                have hcontra2 : (t2 :: ts3).getLast? = some [] := by
                  rwa [List.getLast?_cons_cons] at hcontra
                exact htail [] (by simpa using mem_of_getLast?_eq hcontra2) rfl
      have htokt : createTokensFromLine (joinT ts ws) = (ts.map some, ws ++ [0]) := by
        unfold createTokensFromLine
        rw [if_neg hjoinlen, if_neg hbbtext]
        have hjs := splitLoop_joinT ts ws [] [] nulChar hne hfree htail hws hlenb
          hlast (Or.inl (by decide))
        simpa using hjs
      constructor
      · rw [htext, htokt, htok2]
      · intro i hi
        rw [htext, htokt, htok2]
        show (ws ++ [0])[i]? = (ws ++ [wlast])[i]?
        have hi2 : i < ws.length := by
          rw [htok2, dropTrailingNull_map_some] at hi
          simp only [List.length_map] at hi
          omega
        rw [List.getElem?_append_left hi2, List.getElem?_append_left hi2]

/-- Claim C1, witness: for the three-character line letter, tab, letter
the interior boundary width is preserved by the round trip. -/
theorem claim_c1_witness :
    0 + 1 < (dropTrailingNull (createTokensFromLine ['a', '\t', 'b']).1).length ∧
    (createTokensFromLine ((createLineFromTokens
        (createTokensFromLine ['a', '\t', 'b']).1
        (createTokensFromLine ['a', '\t', 'b']).2).1)).2[0]? =
      (createTokensFromLine ['a', '\t', 'b']).2[0]? :=
  ⟨by decide, (claim_c1_amended ['a', '\t', 'b']).2 0 (by decide)⟩

/-- Claim C2, counterexample: tokenizing the empty line produces a token
vector with TWO entries, the last of which is the NULL marker, so the
claimed count of one valid token fails on the code. -/
theorem claim_c2_counterexample :
    (createTokensFromLine []).1.length = 2 ∧
    (createTokensFromLine []).1.getLast? = some none ∧
    ¬ ((createTokensFromLine []).1.length = 1 ∧
        ∀ t ∈ (createTokensFromLine []).1, ¬ t = none) := by
  decide

/-- Claim C2, amended: tokenizing an entirely empty row produces a token
vector of exactly two entries — one valid empty-text token followed by a
NULL marker entry — and an empty tab vector. -/
theorem claim_c2_amended :
    (createTokensFromLine []).1 = [some [], none] ∧
    (createTokensFromLine []).2 = [] := by
  decide

/-- Claim C3: for every line text exactly one of the five classifications
comment, interpretation, barline, data, empty holds; `isGlobal` is the
negation of `hasSpines`; and `hasSpines` is false exactly for empty lines
and global-comment lines. -/
theorem claim_c3 (s : List Char) :
    [isComment s, isInterp s, isBarline s, isData s, isEmpty s].count true = 1 ∧
    isGlobal s = !hasSpines s ∧
    hasSpines s = !(isEmpty s || isCommentGlobal s) := by
  refine ⟨?_, rfl, ?_⟩
  · cases s with
    | nil => decide
    | cons c rest =>
        have key1 : isComment (c :: rest) = decide (c = '!') :=
          equalChar_cons_zero c rest '!'
        have key2 : isInterp (c :: rest) = decide (c = '*') :=
          equalChar_cons_zero c rest '*'
        have key3 : isBarline (c :: rest) = decide (c = '=') :=
          equalChar_cons_zero c rest '='
        have keyE : isEmpty (c :: rest) = false := by
          simp [isEmpty]
        have keyD : isData (c :: rest) =
            !(decide (c = '!') || decide (c = '*') || decide (c = '=')) := by
          unfold isData
          rw [key1, key2, key3, keyE]
          cases hb1 : decide (c = '!') <;> cases hb2 : decide (c = '*') <;>
            cases hb3 : decide (c = '=') <;> rfl
        rw [key1, key2, key3, keyD, keyE]
        by_cases h1 : c = '!' <;> by_cases h2 : c = '*' <;> by_cases h3 : c = '=' <;>
          first
            | exact absurd (h1.symm.trans h2) (by decide)
            | exact absurd (h1.symm.trans h3) (by decide)
            | exact absurd (h2.symm.trans h3) (by decide)
            | simp [List.count_cons, h1, h2, h3]
  · cases hE : isEmpty s <;> cases hG : isCommentGlobal s <;>
      simp [hasSpines, hE, hG]

/-- Claim C4 (code bug), evaluation at the failing input: on a line whose
rhythm-analysis gate is already set, `getDurationToEnd` returns 0 instead
of the cached score duration minus the line's start offset (which is 4
here), while the sibling accessors do return the cached values. -/
theorem claim_c4_bug :
    getDurationToEnd owEx stEx = 0 ∧
    owEx.scoreDuration - stEx.mdurationFromStart = 4 ∧
    getDurationFromStart owEx stEx = stEx.mdurationFromStart ∧
    getDuration owEx stEx = stEx.mduration := by
  refine ⟨rfl, ?_, rfl, rfl⟩
  show (9 : Rat) - 5 = 4
  norm_num

/-- Claim C5: per line, `analyzeTracks` gives every token the track equal
to the first run of decimal digits of its spine-info string (0 with no
digit), and, when that track value occurs more than once among the line's
tokens, the subtrack numbering 1..N in left-to-right token order (the
i-th token's subtrack is the number of occurrences of its track among the
first i+1 tokens); a track occurring exactly once gets subtrack 0. -/
theorem claim_c5 (infos : List (List Char)) (i : Nat) (h : i < infos.length) :
    (analyzeTracks infos).length = infos.length ∧
    ((analyzeTracks infos).getD i (0, 0)).1 = specFirstRun (infos.getD i []) ∧
    ((analyzeTracks infos).getD i (0, 0)).2 =
      (if 1 < (infos.map specFirstRun).count (specFirstRun (infos.getD i [])) then
        ((infos.map specFirstRun).take (i + 1)).count (specFirstRun (infos.getD i []))
      else 0) := by
  have hfun : firstTrack = specFirstRun := funext firstTrack_spec
  have hlen1 : (infos.map specFirstRun).length = infos.length := by simp
  have hlen2 : (assignSub (infos.map specFirstRun)
      (fun t => (infos.map specFirstRun).count t) (fun _ => 0)).length =
      infos.length := by
    rw [assignSub_length]
    simp
  have hzlen : (analyzeTracks infos).length = infos.length := by
    simp only [analyzeTracks, hfun]
    rw [List.length_zip, hlen1, hlen2]
    exact min_self _
  refine ⟨hzlen, ?_, ?_⟩
  · have hi : i < (analyzeTracks infos).length := hzlen ▸ h
    simp only [analyzeTracks, hfun] at hi ⊢
    rw [List.getD_eq_getElem _ _ hi, List.getElem_zip,
      List.getD_eq_getElem _ _ h]
    simp
  · have hi : i < (analyzeTracks infos).length := hzlen ▸ h
    simp only [analyzeTracks, hfun] at hi ⊢
    rw [List.getD_eq_getElem _ _ hi, List.getElem_zip]
    have hib : i < (assignSub (infos.map specFirstRun)
        (fun t => (infos.map specFirstRun).count t) (fun _ => 0)).length :=
      hlen2 ▸ h
    have himap : i < (infos.map specFirstRun).length := hlen1 ▸ h
    have hmain := assignSub_getD (infos.map specFirstRun)
      (fun t => (infos.map specFirstRun).count t) (fun _ => 0) [] i himap
      (fun x _ => by simp)
    rw [List.getD_eq_getElem _ _ hib] at hmain
    have hgd : (infos.map specFirstRun).getD i 0 = specFirstRun (infos.getD i []) := by
      rw [List.getD_eq_getElem _ _ himap, List.getD_eq_getElem _ _ h]
      simp
    rw [hgd] at hmain
    simpa using hmain

/-- Claim C5, witness: three tokens whose spine infos carry tracks 1, 1,
2 give the first token subtrack 1 (track 1 has two live columns) with
track 1. -/
theorem claim_c5_witness :
    (0 : Nat) < ([['1'], ['1'], ['2']] : List (List Char)).length ∧
    ((analyzeTracks [['1'], ['1'], ['2']]).getD 0 (0, 0)).1 = 1 ∧
    ((analyzeTracks [['1'], ['1'], ['2']]).getD 0 (0, 0)).2 = 1 := by
  have hmain := claim_c5 [['1'], ['1'], ['2']] 0 (by decide)
  refine ⟨by decide, ?_, ?_⟩
  · rw [hmain.2.1]
    decide
  · rw [hmain.2.2]
    decide

/-- Claim C6: for the line text consisting of three exclamation points,
the key OTL, a colon, a space and the value Title, the line is a global
reference record with key OTL and value Title, and it has no spines. -/
theorem claim_c6 :
    isGlobalReference ("!!!OTL: Title".data) = true ∧
    getReferenceKey ("!!!OTL: Title".data) = "OTL".data ∧
    getReferenceValue ("!!!OTL: Title".data) = "Title".data ∧
    hasSpines ("!!!OTL: Title".data) = false := by
  decide

/-- Claim C7, counterexample: the five-character line of three
exclamation points, a colon and one letter begins with the reference
marker, its first colon (index 3) is preceded by no key text at all — in
particular by no non-whitespace key text — yet `isGlobalReference`
classifies it as a reference record, contradicting the claim that such
lines degrade to plain global comments. -/
theorem claim_c7_counterexample :
    ("!!!:x".data).take 3 = ['!', '!', '!'] ∧
    ¬ ("!!!:x".data).getD 3 nulChar = '!' ∧
    (("!!!:x".data).drop 3).takeWhile (fun c => ¬ c = ':') = [] ∧
    isGlobalReference ("!!!:x".data) = true := by
  decide

/-- Claim C7, amended: for a line beginning with three exclamation points
and a non-exclamation character, if the line has no colon, or a space or
tab occurs strictly before the first colon, the line is not classified as
a global reference record (classification is a total function and never
fails); a colon with an empty key is, however, still accepted. -/
theorem claim_c7_amended (s : List Char)
    (hp : s.take 3 = ['!', '!', '!'])
    (h4 : ¬ s.getD 3 nulChar = '!') :
    (findChar s ':' = none → isGlobalReference s = false) ∧
    (∀ m k, findChar s ':' = some m →
      ((findChar s ' ' = some k ∧ k < m) ∨ (findChar s '\t' = some k ∧ k < m)) →
      isGlobalReference s = false) := by
  constructor
  · intro hc
    unfold isGlobalReference
    rw [hc]
    split <;> simp_all
  · intro m k hm hor
    unfold isGlobalReference
    rw [hm]
    rcases hor with ⟨hk, hlt⟩ | ⟨hk, hlt⟩ <;>
      · rw [hk]
        split <;> simp_all

/-- Claim C7, witness: a reference-marker line with no colon is not a
global reference record. -/
theorem claim_c7_witness :
    ("!!!ONB note".data).take 3 = ['!', '!', '!'] ∧
    findChar ("!!!ONB note".data) ':' = none ∧
    isGlobalReference ("!!!ONB note".data) = false :=
  ⟨by decide, by decide,
    (claim_c7_amended ("!!!ONB note".data) (by decide) (by decide)).1 (by decide)⟩

/-- Claim C8: once rhythm analysis has run (the gate is set),
`getBarlineDuration` on a barline line is that line's duration to the
next barline, and on any other line the sum of its durations from the
previous and to the next barline. -/
theorem claim_c8 (ow : OwnerModel) (st : LineModel)
    (h : st.rhythmAnalyzed = true) :
    getBarlineDuration ow st =
      if isBarline st.text then st.mdurationToBarline
      else st.mdurationFromBarline + st.mdurationToBarline := by
  have hm : maybeAnalyze ow st = st := by simp [maybeAnalyze, h]
  simp only [getBarlineDuration, getDurationToBarline, getDurationFromBarline, hm]

/-- Claim C8, witness: on a concrete analyzed barline line the result is
the cached duration to the barline, and on a concrete analyzed data line
the sum of the two cached barline-relative durations. -/
theorem claim_c8_witness :
    ({ stEx with text := ['=', '1'] } : LineModel).rhythmAnalyzed = true ∧
    getBarlineDuration owEx { stEx with text := ['=', '1'] } =
      stEx.mdurationToBarline ∧
    getBarlineDuration owEx stEx =
      stEx.mdurationFromBarline + stEx.mdurationToBarline := by
  refine ⟨rfl, ?_, ?_⟩
  · rw [claim_c8 owEx { stEx with text := ['=', '1'] } rfl]
    rw [if_pos (by decide)]
  · rw [claim_c8 owEx stEx rfl]
    rw [if_neg (by decide)]

/-- Claim C9: immediately after any of the three constructors, all four
duration-window fields hold a negative unanalyzed sentinel (the defaults
of the two barline fields are modelled from the spec, their in-class
initializers not being among the provided sources). -/
theorem claim_c9 (s : List Char) :
    (mkLineEmpty.mduration < 0 ∧ mkLineEmpty.mdurationFromStart < 0 ∧
      mkLineEmpty.mdurationFromBarline < 0 ∧ mkLineEmpty.mdurationToBarline < 0) ∧
    ((mkLineFromString s).mduration < 0 ∧ (mkLineFromString s).mdurationFromStart < 0 ∧
      (mkLineFromString s).mdurationFromBarline < 0 ∧
      (mkLineFromString s).mdurationToBarline < 0) ∧
    ((mkLineFromCStr s).mduration < 0 ∧ (mkLineFromCStr s).mdurationFromStart < 0 ∧
      (mkLineFromCStr s).mdurationFromBarline < 0 ∧
      (mkLineFromCStr s).mdurationToBarline < 0) := by
  refine ⟨⟨?_, ?_, ?_, ?_⟩, ⟨?_, ?_, ?_, ?_⟩, ⟨?_, ?_, ?_, ?_⟩⟩ <;>
    simp [mkLineEmpty, mkLineFromString, mkLineFromCStr,
      specInitDurationFromBarline, specInitDurationToBarline]

/-- Claim C10: character access is total and in bounds: for a negative or
too-large index `getChar` returns NUL and `equalChar` returns false; for
an in-range index both read the character through a bounds-checked access
(the existential carries the in-bounds proof). -/
theorem claim_c10 (s : List Char) (index : Int) (ch : Char) :
    ((index < 0 ∨ (s.length : Int) ≤ index) →
      getChar s index = nulChar ∧ equalChar s index ch = false) ∧
    (0 ≤ index → index < (s.length : Int) →
      ∃ hb : index.toNat < s.length,
        getChar s index = s.get ⟨index.toNat, hb⟩ ∧
        equalChar s index ch = decide (s.get ⟨index.toNat, hb⟩ = ch)) := by
  constructor
  · rintro (h | h)
    · constructor
      · simp [getChar, h]
      · unfold equalChar
        rw [if_neg (by omega), if_pos h]
    · constructor
      · unfold getChar
        by_cases h0 : index < 0
        · rw [if_pos h0]
        · rw [if_neg h0, if_pos h]
      · unfold equalChar
        rw [if_pos h]
  · intro h0 hl
    have hb : index.toNat < s.length := by omega
    refine ⟨hb, ?_, ?_⟩
    · unfold getChar
      rw [if_neg (by omega), if_neg (by omega), List.getD_eq_getElem _ _ hb]
      simp
    · unfold equalChar
      rw [if_neg (by omega), if_neg (by omega), List.getD_eq_getElem _ _ hb]
      simp only [List.get_eq_getElem]
      split <;> simp_all

/-- Claim C10, witness: concrete out-of-range and in-range accesses. -/
theorem claim_c10_witness :
    (getChar ['a', 'b'] (-3) = nulChar ∧ equalChar ['a', 'b'] (-3) 'a' = false) ∧
    getChar ['a', 'b'] 1 = 'b' := by
  constructor
  · exact (claim_c10 ['a', 'b'] (-3) 'a').1 (Or.inl (by decide))
  · obtain ⟨hb, h1, h2⟩ := (claim_c10 ['a', 'b'] 1 'b').2 (by decide) (by decide)
    rw [h1]
    rfl

end Humlib
